import Mathlib

/-!
# Verification of the birthday-riddle-surprise progress engine

Shallow embedding of the progress/state engine of the puzzle app:
the selection-key encoder (`src/lib/connections.ts`), the grouping-puzzle
submit logic (`src/pages/ConnectionsPage.tsx`), the word evaluator and
word-puzzle state machine (`src/pages/WordlePage.tsx`), the riddle
lock/hint logic (the feature-complete `HegionitPage` variant), and the
game context store (`src/context/GameContext.tsx`).

Machine integers are modelled as `Nat`/`Int`, JS strings as `String` or
`List Char`, JS `Set`s as `Finset`, JS objects used as keyed records as
functions into `Option`.
-/

/-! ## Selection Key Encoder (`src/lib/connections.ts`) -/

/-- Model of `String.prototype.trim`: drop leading and trailing whitespace. -/
def jsTrim (s : String) : String :=
  ⟨((s.data.dropWhile Char.isWhitespace).reverse.dropWhile Char.isWhitespace).reverse⟩

/-- Lexicographic comparison of char lists: the model of the
`localeCompare(…, 'he')` comparator used by the selection-key sort (a
total order on strings; distinct strings never compare equal). -/
def charListLe : List Char → List Char → Bool
  | [], _ => true
  | _ :: _, [] => false
  | a :: as, b :: bs => if a = b then charListLe as bs else decide (a < b)

/-- The sort relation of `createSelectionKey`. -/
def LocaleLe (a b : String) : Prop := charListLe a.data b.data = true

instance : DecidableRel LocaleLe := fun a b =>
  inferInstanceAs (Decidable (charListLe a.data b.data = true))

theorem charListLe_total : ∀ as bs : List Char,
    charListLe as bs = true ∨ charListLe bs as = true
  | [], _ => Or.inl rfl
  | _ :: _, [] => Or.inr rfl
  | a :: as, b :: bs => by
    by_cases hab : a = b
    · subst hab
      simpa [charListLe] using charListLe_total as bs
    · rcases lt_or_gt_of_ne hab with h | h
      · exact Or.inl (by simp [charListLe, hab, h])
      · exact Or.inr (by simp [charListLe, Ne.symm hab, not_lt_of_gt h, h])

instance : IsTotal String LocaleLe := ⟨fun a b => charListLe_total a.data b.data⟩

theorem charListLe_antisymm : ∀ as bs : List Char,
    charListLe as bs = true → charListLe bs as = true → as = bs
  | [], [], _, _ => rfl
  | [], _ :: _, _, h => by simp [charListLe] at h
  | _ :: _, [], h, _ => by simp [charListLe] at h
  | a :: as, b :: bs, h₁, h₂ => by
    by_cases hab : a = b
    · subst hab
      simp only [charListLe, if_pos rfl] at h₁ h₂
      exact congrArg _ (charListLe_antisymm as bs h₁ h₂)
    · simp only [charListLe, if_neg hab, if_neg (Ne.symm hab),
        decide_eq_true_eq] at h₁ h₂
      exact absurd h₂ (not_lt_of_gt h₁)

instance : IsAntisymm String LocaleLe :=
  ⟨fun a b h₁ h₂ => by
    cases a; cases b
    exact congrArg String.mk (charListLe_antisymm _ _ h₁ h₂)⟩

theorem charListLe_trans : ∀ as bs cs : List Char,
    charListLe as bs = true → charListLe bs cs = true → charListLe as cs = true
  | [], _, _, _, _ => rfl
  | _ :: _, [], _, h, _ => by simp [charListLe] at h
  | _ :: _, _ :: _, [], _, h => by simp [charListLe] at h
  | a :: as, b :: bs, c :: cs, h₁, h₂ => by
    by_cases hab : a = b
    · subst hab
      by_cases hbc : a = c
      · subst hbc
        simp only [charListLe, if_pos rfl] at h₁ h₂ ⊢
        exact charListLe_trans as bs cs h₁ h₂
      · simpa [charListLe, hbc] using h₂
    · simp only [charListLe, if_neg hab, decide_eq_true_eq] at h₁
      by_cases hbc : b = c
      · subst hbc
        simp [charListLe, hab, h₁]
      · simp only [charListLe, if_neg hbc, decide_eq_true_eq] at h₂
        have hac : a < c := lt_trans h₁ h₂
        simp [charListLe, ne_of_lt hac, hac]

instance : IsTrans String LocaleLe := ⟨fun a b c => charListLe_trans a.data b.data c.data⟩

/-- `createSelectionKey(words)`: trim each item, drop empty items, sort
with the locale comparator, join with `|`. -/
def createSelectionKey (words : List String) : String :=
  String.intercalate "|"
    (List.insertionSort LocaleLe ((words.map jsTrim).filter (fun w => w ≠ "")))

/-- Sorting two lists that are permutations of each other gives the same list. -/
theorem insertionSort_eq_of_perm {l₁ l₂ : List String} (h : l₁.Perm l₂) :
    List.insertionSort LocaleLe l₁ = List.insertionSort LocaleLe l₂ := by
  have hs₁ : List.Sorted LocaleLe (List.insertionSort LocaleLe l₁) :=
    List.sorted_insertionSort _ l₁
  have hs₂ : List.Sorted LocaleLe (List.insertionSort LocaleLe l₂) :=
    List.sorted_insertionSort _ l₂
  exact List.eq_of_perm_of_sorted
    (((List.perm_insertionSort _ l₁).trans h).trans
      (List.perm_insertionSort _ l₂).symm) hs₁ hs₂

/-- The multiset of non-empty trimmed items determines the key. -/
theorem createSelectionKey_eq_of_perm {ws₁ ws₂ : List String}
    (h : ((ws₁.map jsTrim).filter (fun w => w ≠ "")).Perm
         ((ws₂.map jsTrim).filter (fun w => w ≠ ""))) :
    createSelectionKey ws₁ = createSelectionKey ws₂ := by
  unfold createSelectionKey
  rw [insertionSort_eq_of_perm h]

/-- A permutation of the raw item list induces a permutation of the
trimmed non-empty items, hence an equal key. -/
theorem createSelectionKey_eq_of_perm_raw {ws₁ ws₂ : List String}
    (h : ws₁.Perm ws₂) : createSelectionKey ws₁ = createSelectionKey ws₂ :=
  createSelectionKey_eq_of_perm ((h.map jsTrim).filter _)

/-- C8: two lists of strings with the same multiset of non-empty trimmed items
yield identical selection keys, independent of item order, surrounding
whitespace and extra empty entries; in particular
`key(["a","b","c","d"]) = key(["d","c","b","a"])` and
`key(["a","","b"," c "]) = key(["a","b","c"])`. -/
theorem createSelectionKey_multiset_invariance :
    (∀ ws₁ ws₂ : List String,
        ((ws₁.map jsTrim).filter (fun w => w ≠ "")).Perm
          ((ws₂.map jsTrim).filter (fun w => w ≠ "")) →
        createSelectionKey ws₁ = createSelectionKey ws₂)
    ∧ createSelectionKey ["a", "b", "c", "d"] = createSelectionKey ["d", "c", "b", "a"]
    ∧ createSelectionKey ["a", "", "b", " c "] = createSelectionKey ["a", "b", "c"] :=
  ⟨fun _ _ h => createSelectionKey_eq_of_perm h, by decide, by decide⟩

/-- Witness for C8 at a concrete input. -/
theorem createSelectionKey_multiset_invariance_witness :
    createSelectionKey ["x", "y"] = createSelectionKey ["y", "x"] :=
  createSelectionKey_multiset_invariance.1 ["x", "y"] ["y", "x"] (by decide)

/-! ## Grouping puzzle (`src/pages/ConnectionsPage.tsx`) -/

/-- The `connections` progress record of `GameContext`. -/
structure ConnectionsRecord where
  solved : Bool
  failed : Bool
  solvedGroups : List Nat
  attempts : Nat
  hintsUsed : Nat
  lastHintWords : List String
  lastHintAttempts : Int
  triedSelections : List String
deriving Repr, DecidableEq

/-- JS `Array.prototype.findIndex`, as an `Option`-valued index search. -/
def findIndexAux (p : α → Bool) : List α → Nat → Option Nat
  | [], _ => none
  | a :: l, i => if p a then some i else findIndexAux p l (i + 1)

/-- First index of the list satisfying `p`, if any. -/
def findIndexJS (p : α → Bool) (l : List α) : Option Nat := findIndexAux p l 0

/-- The per-group test of `handleSubmit`: every selected word belongs to the
group and the selection has the group's size. -/
def matchesGroup (sel : List String) (g : List String) : Bool :=
  sel.all (fun w => g.contains w) && sel.length == g.length

/-- `maxAttempts` of the grouping page. -/
def maxAttemptsConn : Nat := 6

/-- The shared tail of `handleSubmit` for a selection that does not solve a
new group: a duplicate key changes nothing, a new key is recorded and
counted, possibly reaching the failure state. -/
def connSubmitWrong (p : ConnectionsRecord) (selectionKey : String) : ConnectionsRecord :=
  if p.triedSelections.contains selectionKey then p
  else
    { p with attempts := p.attempts + 1,
             triedSelections := p.triedSelections ++ [selectionKey],
             failed := decide (p.attempts + 1 ≥ maxAttemptsConn) }

/-- `handleSubmit` of the grouping page, restricted to its effect on the
persisted `connections` progress record. -/
def connSubmit (groups : List (List String)) (p : ConnectionsRecord)
    (sel : List String) : ConnectionsRecord :=
  if p.solved || p.failed then p
  else if sel.length ≠ 4 then p
  else
    let selectionKey := createSelectionKey sel
    match findIndexJS (matchesGroup sel) groups with
    | some gi =>
      if p.solvedGroups.contains gi then connSubmitWrong p selectionKey
      else
        { p with solvedGroups := p.solvedGroups ++ [gi],
                 solved := (p.solvedGroups ++ [gi]).length == groups.length,
                 failed := false,
                 triedSelections :=
                   if p.triedSelections.contains selectionKey then p.triedSelections
                   else p.triedSelections ++ [selectionKey],
                 lastHintWords := [],
                 lastHintAttempts := -1 }
    | none => connSubmitWrong p selectionKey
theorem findIndexAux_some {α : Type} {p : α → Bool} :
    ∀ (l : List α) (i j : Nat), findIndexAux p l i = some j →
      ∃ k a, j = i + k ∧ l.get? k = some a ∧ p a = true
  | [], _, _, h => by simp [findIndexAux] at h
  | a :: l, i, j, h => by
    by_cases hp : p a
    · simp only [findIndexAux, if_pos hp, Option.some.injEq] at h
      exact ⟨0, a, by omega, rfl, hp⟩
    · simp only [findIndexAux, if_neg hp] at h
      obtain ⟨k, b, hk, hget, hpb⟩ := findIndexAux_some l (i + 1) j h
      exact ⟨k + 1, b, by omega, by simpa using hget, hpb⟩

theorem findIndexJS_some {α : Type} {p : α → Bool} {l : List α} {j : Nat}
    (h : findIndexJS p l = some j) : ∃ a, l.get? j = some a ∧ p a = true := by
  obtain ⟨k, a, hj, hget, hpa⟩ := findIndexAux_some l 0 j h
  refine ⟨a, ?_, hpa⟩
  simpa [hj] using hget

theorem matchesGroup_perm {sel sel' : List String} (h : sel.Perm sel')
    (g : List String) : matchesGroup sel g = matchesGroup sel' g := by
  unfold matchesGroup
  rw [h.length_eq]
  have : sel.all (fun w => g.contains w) = sel'.all (fun w => g.contains w) := by
    rw [Bool.eq_iff_iff]
    simp only [List.all_eq_true]
    exact ⟨fun hall w hw => hall w (h.mem_iff.mpr hw),
           fun hall w hw => hall w (h.mem_iff.mp hw)⟩
  rw [this]

theorem connSubmit_eq_wrong {groups : List (List String)} {p : ConnectionsRecord}
    {sel : List String}
    (hs : p.solved = false) (hf : p.failed = false) (hlen : sel.length = 4)
    (hno : ∀ gi g, groups.get? gi = some g → matchesGroup sel g = true →
        p.solvedGroups.contains gi = true) :
    connSubmit groups p sel = connSubmitWrong p (createSelectionKey sel) := by
  unfold connSubmit
  rw [hs, hf]
  cases hfind : findIndexJS (matchesGroup sel) groups with
  | none => simp [hfind, hlen]
  | some gi =>
    obtain ⟨g, hg, hm⟩ := findIndexJS_some hfind
    have hmem : gi ∈ p.solvedGroups := by simpa using hno gi g hg hm
    simp [hfind, hmem, hlen]

theorem connSubmitWrong_solved (p : ConnectionsRecord) (k : String) :
    (connSubmitWrong p k).solved = p.solved := by
  unfold connSubmitWrong; split <;> rfl

theorem connSubmitWrong_solvedGroups (p : ConnectionsRecord) (k : String) :
    (connSubmitWrong p k).solvedGroups = p.solvedGroups := by
  unfold connSubmitWrong; split <;> rfl

theorem connSubmitWrong_mem_tried (p : ConnectionsRecord) (k : String) :
    (connSubmitWrong p k).triedSelections.contains k = true := by
  unfold connSubmitWrong
  split
  · assumption
  · simp


theorem connSubmitWrong_of_tried {p : ConnectionsRecord} {k : String}
    (h : p.triedSelections.contains k = true) : connSubmitWrong p k = p := by
  unfold connSubmitWrong
  rw [if_pos h]

/-- C4: in a grouping state that is neither solved nor failed, a complete
4-item selection matching no unsolved group increments `attempts` by exactly 1
and appends its canonical key when the key is new, and changes nothing when the
key was already tried; hence resubmitting the same wrong selection in any pick
order leaves the state of the first submission unchanged. A correct
not-previously-solved selection appends its group index to `solvedGroups`,
and `solvedGroups` never shrinks. -/
theorem connSubmit_c4 :
    (∀ (groups : List (List String)) (p : ConnectionsRecord) (sel : List String),
        p.solved = false → p.failed = false → sel.length = 4 →
        (∀ gi g, groups.get? gi = some g → matchesGroup sel g = true →
            p.solvedGroups.contains gi = true) →
        ((p.triedSelections.contains (createSelectionKey sel) = false →
            (connSubmit groups p sel).attempts = p.attempts + 1 ∧
            (connSubmit groups p sel).triedSelections
              = p.triedSelections ++ [createSelectionKey sel])
         ∧ (p.triedSelections.contains (createSelectionKey sel) = true →
            (connSubmit groups p sel).attempts = p.attempts ∧
            (connSubmit groups p sel).triedSelections = p.triedSelections)
         ∧ (∀ sel', sel.Perm sel' →
            connSubmit groups (connSubmit groups p sel) sel' = connSubmit groups p sel)))
    ∧ (∀ (groups : List (List String)) (p : ConnectionsRecord) (sel : List String) (gi : Nat),
        p.solved = false → p.failed = false → sel.length = 4 →
        findIndexJS (matchesGroup sel) groups = some gi →
        p.solvedGroups.contains gi = false →
        (connSubmit groups p sel).solvedGroups = p.solvedGroups ++ [gi])
    ∧ (∀ (groups : List (List String)) (p : ConnectionsRecord) (sel : List String),
        p.solvedGroups.length ≤ (connSubmit groups p sel).solvedGroups.length) := by
  refine ⟨?_, ?_, ?_⟩
  · intro groups p sel hs hf hlen hno
    have hw := connSubmit_eq_wrong hs hf hlen hno
    refine ⟨?_, ?_, ?_⟩
    · intro hnot
      have hmem : createSelectionKey sel ∉ p.triedSelections := by simpa using hnot
      rw [hw]
      simp [connSubmitWrong, hmem]
    · intro hyes
      have hmem : createSelectionKey sel ∈ p.triedSelections := by simpa using hyes
      rw [hw]
      simp [connSubmitWrong, hmem]
    · intro sel' hperm
      rw [hw]
      by_cases hqf : (connSubmitWrong p (createSelectionKey sel)).failed = true
      · unfold connSubmit
        rw [hqf]
        simp
      · have hqs : (connSubmitWrong p (createSelectionKey sel)).solved = false := by
          rw [connSubmitWrong_solved]; exact hs
        have hlen' : sel'.length = 4 := hperm.length_eq ▸ hlen
        have hkey : createSelectionKey sel' = createSelectionKey sel :=
          (createSelectionKey_eq_of_perm_raw hperm).symm
        have hmg : matchesGroup sel' = matchesGroup sel :=
          funext fun g => (matchesGroup_perm hperm g).symm
        have hno' : ∀ gi g, groups.get? gi = some g → matchesGroup sel' g = true →
            (connSubmitWrong p (createSelectionKey sel)).solvedGroups.contains gi = true := by
          intro gi g hg hm
          rw [connSubmitWrong_solvedGroups]
          exact hno gi g hg (by rw [← hmg]; exact hm)
        have hq := connSubmit_eq_wrong hqs (Bool.eq_false_iff.mpr hqf) hlen' hno'
        rw [hq, hkey]
        exact connSubmitWrong_of_tried (connSubmitWrong_mem_tried p (createSelectionKey sel))
  · intro groups p sel gi hs hf hlen hfind hnot
    have hmem : gi ∉ p.solvedGroups := by simpa using hnot
    unfold connSubmit
    rw [hs, hf]
    simp [hfind, hmem, hlen]
  · intro groups p sel
    unfold connSubmit connSubmitWrong
    repeat' split
    all_goals try dsimp only
    all_goals first | exact Nat.le_refl _ | (split <;> simp) | simp

/-- A fresh grouping record, used by concrete witnesses. -/
def connWitnessState : ConnectionsRecord :=
  { solved := false, failed := false, solvedGroups := [], attempts := 0,
    hintsUsed := 0, lastHintWords := [], lastHintAttempts := -1,
    triedSelections := [] }

/-- Witness for C4 at a concrete input: one wrong fresh selection counts once. -/
theorem connSubmit_c4_witness :
    (connSubmit [["a", "b", "c", "d"]] connWitnessState ["a", "b", "c", "e"]).attempts
        = connWitnessState.attempts + 1 ∧
    (connSubmit [["a", "b", "c", "d"]] connWitnessState ["a", "b", "c", "e"]).triedSelections
        = connWitnessState.triedSelections ++ [createSelectionKey ["a", "b", "c", "e"]] :=
  (connSubmit_c4.1 [["a", "b", "c", "d"]] connWitnessState ["a", "b", "c", "e"]
      rfl rfl (by decide)
      (by
        intro gi g hg hm
        cases gi with
        | zero =>
          simp only [List.get?] at hg
          cases hg
          exact absurd hm (by decide)
        | succ n => simp [List.get?] at hg)).1 rfl

/-! ## Game context store (`src/context/GameContext.tsx`) -/

/-- The `hegionit` progress record of `GameContext`. The JS
`Record<number, T>` objects are modelled as functions into `Option`. -/
structure HegionitRecord where
  currentRiddle : Nat
  solved : List Bool
  hintsUsed : List Nat
  answers : List String
  lockedIndices : Nat → Option (List Nat)
  solvedLetters : Nat → Option (List String)

/-- The `wordle` progress record of `GameContext`. -/
structure WordleRecord where
  solved : Bool
  failed : Bool
  attempts : List String
  currentAttempt : String
deriving Repr, DecidableEq

/-- The composite `progress` object of `GameContext`. -/
structure PuzzleProgress where
  hegionit : HegionitRecord
  wordle : WordleRecord
  connections : ConnectionsRecord

/-- Result type of `getPuzzleStatus`. -/
inductive PuzzleStatusKind
  | locked
  | inProgress
  | solved
deriving Repr, DecidableEq

/-- Identifier of one of the three puzzles. -/
inductive PuzzleId
  | hegionit
  | wordle
  | connections

/-- The `allCompleted` recomputation effect: all riddles solved, the word
puzzle solved and the grouping puzzle solved. -/
def computeAllCompleted (p : PuzzleProgress) : Bool :=
  p.hegionit.solved.all (fun b => b) && p.wordle.solved && p.connections.solved

/-- `getPuzzleStatus` of `GameContext`. -/
def getPuzzleStatus (p : PuzzleProgress) : PuzzleId → PuzzleStatusKind
  | .hegionit =>
    if p.hegionit.solved.all (fun b => b) then .solved
    else if p.hegionit.solved.any (fun b => b)
        || p.hegionit.answers.any (fun a => a.length > 0) then .inProgress
    else .locked
  | .wordle =>
    if p.wordle.solved then .solved
    else if p.wordle.attempts.length > 0 then .inProgress
    else .locked
  | .connections =>
    if p.connections.solved then .solved
    else if p.connections.solvedGroups.length > 0
        || p.connections.attempts > 0 then .inProgress
    else .locked

/-- A puzzle reports solved exactly when its solved flag is set (riddles:
every entry of the solved array). -/
theorem getPuzzleStatus_hegionit_solved_iff (p : PuzzleProgress) :
    getPuzzleStatus p .hegionit = .solved
      ↔ p.hegionit.solved.all (fun b => b) = true := by
  simp only [getPuzzleStatus]
  by_cases h : p.hegionit.solved.all (fun b => b) = true
  · simp [h]
  · rw [if_neg h]
    constructor
    · intro hx
      split at hx <;> simp at hx
    · intro hx
      exact absurd hx h

/-- The word puzzle reports solved exactly when its solved flag is set. -/
theorem getPuzzleStatus_wordle_solved_iff (p : PuzzleProgress) :
    getPuzzleStatus p .wordle = .solved ↔ p.wordle.solved = true := by
  simp only [getPuzzleStatus]
  by_cases h : p.wordle.solved = true
  · simp [h]
  · rw [if_neg h]
    constructor
    · intro hx
      split at hx <;> simp at hx
    · intro hx
      exact absurd hx h

/-- The grouping puzzle reports solved exactly when its solved flag is set. -/
theorem getPuzzleStatus_connections_solved_iff (p : PuzzleProgress) :
    getPuzzleStatus p .connections = .solved ↔ p.connections.solved = true := by
  simp only [getPuzzleStatus]
  by_cases h : p.connections.solved = true
  · simp [h]
  · rw [if_neg h]
    constructor
    · intro hx
      split at hx <;> simp at hx
    · intro hx
      exact absurd hx h

/-- C1: `allCompleted` (as recomputed after every mutation of `progress`) is
true exactly when all three puzzles report status solved, i.e. every entry of
the riddle `solved` array is true, the word `solved` flag is true and the
grouping `solved` flag is true; this holds for every state, in particular for
all 8 combinations of the three solved conditions. -/
theorem computeAllCompleted_iff_all_statuses_solved (p : PuzzleProgress) :
    computeAllCompleted p = true ↔
      (getPuzzleStatus p .hegionit = .solved
        ∧ getPuzzleStatus p .wordle = .solved
        ∧ getPuzzleStatus p .connections = .solved) := by
  rw [getPuzzleStatus_hegionit_solved_iff, getPuzzleStatus_wordle_solved_iff,
    getPuzzleStatus_connections_solved_iff]
  simp [computeAllCompleted, and_assoc]

/-- A partial update payload for `updateHegionitProgress`; `none` marks a
field absent from the JS partial object. -/
structure HegionitUpdate where
  currentRiddle : Option Nat
  solved : Option (List Bool)
  hintsUsed : Option (List Nat)
  answers : Option (List String)
  lockedIndices : Option (Nat → Option (List Nat))
  solvedLetters : Option (Nat → Option (List String))

/-- `updateHegionitProgress`: shallow merge of all fields, except
`lockedIndices` and `solvedLetters` which, when present in the update, merge
key-by-key over the previous record. -/
def updateHegionitProgress (prev : HegionitRecord) (u : HegionitUpdate) :
    HegionitRecord :=
  { currentRiddle := u.currentRiddle.getD prev.currentRiddle,
    solved := u.solved.getD prev.solved,
    hintsUsed := u.hintsUsed.getD prev.hintsUsed,
    answers := u.answers.getD prev.answers,
    lockedIndices :=
      match u.lockedIndices with
      | some m => fun k => (m k).orElse (fun _ => prev.lockedIndices k)
      | none => prev.lockedIndices,
    solvedLetters :=
      match u.solvedLetters with
      | some m => fun k => (m k).orElse (fun _ => prev.solvedLetters k)
      | none => prev.solvedLetters }

/-- C9: `updateHegionitProgress` merges `lockedIndices` and `solvedLetters`
key-by-key: a riddle index absent from the update keeps exactly its previous
locks and solved-letter snapshot, an index present in the update takes the
updated value; all other fields merge shallowly (absent keeps the previous
value, present replaces it). -/
theorem updateHegionitProgress_c9 :
    (∀ (prev : HegionitRecord) (u : HegionitUpdate) (k : Nat),
        (∀ m, u.lockedIndices = some m → m k = none) →
        (updateHegionitProgress prev u).lockedIndices k = prev.lockedIndices k)
    ∧ (∀ (prev : HegionitRecord) (u : HegionitUpdate) (k : Nat),
        (∀ m, u.solvedLetters = some m → m k = none) →
        (updateHegionitProgress prev u).solvedLetters k = prev.solvedLetters k)
    ∧ (∀ (prev : HegionitRecord) (u : HegionitUpdate) m (k : Nat) v,
        u.lockedIndices = some m → m k = some v →
        (updateHegionitProgress prev u).lockedIndices k = some v)
    ∧ (∀ (prev : HegionitRecord) (u : HegionitUpdate) m (k : Nat) v,
        u.solvedLetters = some m → m k = some v →
        (updateHegionitProgress prev u).solvedLetters k = some v)
    ∧ (∀ (prev : HegionitRecord) (u : HegionitUpdate),
        (u.currentRiddle = none →
          (updateHegionitProgress prev u).currentRiddle = prev.currentRiddle)
        ∧ (∀ v, u.currentRiddle = some v →
          (updateHegionitProgress prev u).currentRiddle = v)
        ∧ (u.solved = none →
          (updateHegionitProgress prev u).solved = prev.solved)
        ∧ (∀ v, u.solved = some v → (updateHegionitProgress prev u).solved = v)
        ∧ (u.hintsUsed = none →
          (updateHegionitProgress prev u).hintsUsed = prev.hintsUsed)
        ∧ (∀ v, u.hintsUsed = some v →
          (updateHegionitProgress prev u).hintsUsed = v)
        ∧ (u.answers = none →
          (updateHegionitProgress prev u).answers = prev.answers)
        ∧ (∀ v, u.answers = some v →
          (updateHegionitProgress prev u).answers = v)) := by
  refine ⟨?_, ?_, ?_, ?_, ?_⟩
  · intro prev u k hm
    unfold updateHegionitProgress
    cases hu : u.lockedIndices with
    | none => rfl
    | some m => simp [hm m hu, Option.orElse]
  · intro prev u k hm
    unfold updateHegionitProgress
    cases hu : u.solvedLetters with
    | none => rfl
    | some m => simp [hm m hu, Option.orElse]
  · intro prev u m k v hu hk
    unfold updateHegionitProgress
    simp [hu, hk, Option.orElse]
  · intro prev u m k v hu hk
    unfold updateHegionitProgress
    simp [hu, hk, Option.orElse]
  · intro prev u
    refine ⟨?_, ?_, ?_, ?_, ?_, ?_, ?_, ?_⟩ <;>
      first
        | (intro h; simp [updateHegionitProgress, h])
        | (intro v h; simp [updateHegionitProgress, h])

/-- Concrete previous record for the C9 witness: riddle 0 has one lock. -/
def hegionitPrevW : HegionitRecord :=
  { currentRiddle := 0, solved := [false, false, false],
    hintsUsed := [0, 0, 0], answers := ["", "", ""],
    lockedIndices := fun k => if k = 0 then some [1] else none,
    solvedLetters := fun _ => none }

/-- Concrete update for the C9 witness: only riddle 2 gets new locks. -/
def hegionitUpdateW : HegionitUpdate :=
  { currentRiddle := none, solved := none, hintsUsed := none, answers := none,
    lockedIndices := some (fun k => if k = 2 then some [3] else none),
    solvedLetters := none }

/-- Witness for C9: updating riddle 2's locks leaves riddle 0's locks intact. -/
theorem updateHegionitProgress_c9_witness :
    (updateHegionitProgress hegionitPrevW hegionitUpdateW).lockedIndices 0
      = hegionitPrevW.lockedIndices 0 :=
  updateHegionitProgress_c9.1 hegionitPrevW hegionitUpdateW 0
    (by intro m hm; cases hm; rfl)

/-- The page enum of `GameState.currentPage`. -/
inductive PageName
  | landing
  | hub
  | hegionit
  | wordle
  | connections
  | final
deriving Repr, DecidableEq

/-- Default `hegionit` progress (`initialProgress.hegionit`). -/
def initialHegionit : HegionitRecord :=
  { currentRiddle := 0, solved := [false, false, false],
    hintsUsed := [0, 0, 0], answers := ["", "", ""],
    lockedIndices := fun _ => none, solvedLetters := fun _ => none }

/-- Default `wordle` progress (`initialProgress.wordle`). -/
def initialWordle : WordleRecord :=
  { solved := false, failed := false, attempts := [], currentAttempt := "" }

/-- Default `connections` progress (`initialProgress.connections`). -/
def initialConnections : ConnectionsRecord :=
  { solved := false, failed := false, solvedGroups := [], attempts := 0,
    hintsUsed := 0, lastHintWords := [], lastHintAttempts := -1,
    triedSelections := [] }

/-- A persisted `wordle` record as parsed from JSON; `none` marks an absent key. -/
structure ParsedWordle where
  solved : Option Bool
  failed : Option Bool
  attempts : Option (List String)
  currentAttempt : Option String

/-- A persisted `connections` record as parsed from JSON; `none` marks an
absent key. For `triedSelections`, the outer `Option` marks key presence and
the inner one whether the value is an array (`Array.isArray`). -/
structure ParsedConnections where
  solved : Option Bool
  failed : Option Bool
  solvedGroups : Option (List Nat)
  attempts : Option Nat
  hintsUsed : Option Nat
  lastHintWords : Option (List String)
  lastHintAttempts : Option Int
  triedSelections : Option (Option (List String))

/-- A persisted `progress` object as parsed from JSON. -/
structure ParsedProgress where
  hegionit : Option HegionitRecord
  wordle : Option ParsedWordle
  connections : Option ParsedConnections

/-- A persisted snapshot as parsed from JSON. -/
structure ParsedSnapshot where
  currentPage : Option PageName
  progress : Option ParsedProgress
  allCompleted : Option Bool

/-- The state produced by the `useState` initializer. The `currentPage`,
`allCompleted` and `hegionit` components are spread verbatim from the parsed
snapshot, so they may be absent. -/
structure LoadedProgress where
  hegionit : Option HegionitRecord
  wordle : WordleRecord
  connections : ConnectionsRecord

/-- The root state produced by the `useState` initializer. -/
structure LoadedGameState where
  currentPage : Option PageName
  progress : LoadedProgress
  allCompleted : Option Bool

/-- `initialState` of `GameContext`, in loaded form. -/
def initialLoaded : LoadedGameState :=
  { currentPage := some .landing,
    progress := { hegionit := some initialHegionit, wordle := initialWordle,
                  connections := initialConnections },
    allCompleted := some false }

/-- `{ ...initialProgress.wordle, ...parsed.progress?.wordle }`. -/
def mergeWordle : Option ParsedWordle → WordleRecord
  | none => initialWordle
  | some w =>
    { solved := w.solved.getD initialWordle.solved,
      failed := w.failed.getD initialWordle.failed,
      attempts := w.attempts.getD initialWordle.attempts,
      currentAttempt := w.currentAttempt.getD initialWordle.currentAttempt }

/-- `{ ...initialProgress.connections, ...parsed.progress?.connections,
triedSelections: Array.isArray(…) ? … : [] }`. -/
def mergeConnections : Option ParsedConnections → ConnectionsRecord
  | none => initialConnections
  | some c =>
    { solved := c.solved.getD initialConnections.solved,
      failed := c.failed.getD initialConnections.failed,
      solvedGroups := c.solvedGroups.getD initialConnections.solvedGroups,
      attempts := c.attempts.getD initialConnections.attempts,
      hintsUsed := c.hintsUsed.getD initialConnections.hintsUsed,
      lastHintWords := c.lastHintWords.getD initialConnections.lastHintWords,
      lastHintAttempts := c.lastHintAttempts.getD initialConnections.lastHintAttempts,
      triedSelections :=
        match c.triedSelections with
        | some (some l) => l
        | _ => [] }

/-- The `useState` initializer of `GameProvider`. The outer `Option` is the
presence of a stored item in `localStorage`, the inner one the success of
`JSON.parse`. -/
def loadGameState : Option (Option ParsedSnapshot) → LoadedGameState
  | none => initialLoaded
  | some none => initialLoaded
  | some (some parsed) =>
    { currentPage := parsed.currentPage,
      allCompleted := parsed.allCompleted,
      progress :=
        { hegionit := parsed.progress.bind (fun pr => pr.hegionit),
          wordle := mergeWordle (parsed.progress.bind (fun pr => pr.wordle)),
          connections :=
            mergeConnections (parsed.progress.bind (fun pr => pr.connections)) } }

/-- A snapshot that parses fine but whose `progress` lacks the `hegionit`
record entirely. -/
def c2BadSnapshot : ParsedSnapshot :=
  { currentPage := some .hub,
    progress := some { hegionit := none, wordle := none, connections := none },
    allCompleted := some false }

/-- C2 counterexample: a parsable snapshot whose `hegionit` record is absent
does NOT get the default `hegionit` record — the initializer leaves the field
absent, while a fresh default state carries `initialHegionit`. Field-by-field
recovery is not applied to the riddle record. -/
theorem loadGameState_c2_counterexample :
    (loadGameState (some (some c2BadSnapshot))).progress.hegionit = none
    ∧ initialLoaded.progress.hegionit = some initialHegionit
    ∧ (loadGameState (some (some c2BadSnapshot))).progress.hegionit
        ≠ some initialHegionit :=
  ⟨rfl, rfl, fun h => Option.noConfusion h⟩

/-- C2 (amended): initialization never crashes and never rejects a parsable
snapshot wholesale. The `wordle` and `connections` records are recovered
field-by-field (absent fields take their defaults, present fields are kept,
and a missing or non-array `triedSelections` becomes `[]`), and a missing
`wordle`/`connections` record is replaced whole by its default. The
`hegionit` record, however, is spread verbatim from the snapshot — absent
stays absent instead of being defaulted — and an unparsable or absent
snapshot yields the full default state. -/
theorem loadGameState_c2_amended :
    (∀ (s : ParsedSnapshot) (pr : ParsedProgress) (pw : ParsedWordle),
        s.progress = some pr → pr.wordle = some pw →
        ((pw.solved = none →
            (loadGameState (some (some s))).progress.wordle.solved
              = initialWordle.solved)
          ∧ (∀ v, pw.solved = some v →
            (loadGameState (some (some s))).progress.wordle.solved = v)
          ∧ (pw.failed = none →
            (loadGameState (some (some s))).progress.wordle.failed
              = initialWordle.failed)
          ∧ (∀ v, pw.failed = some v →
            (loadGameState (some (some s))).progress.wordle.failed = v)
          ∧ (pw.attempts = none →
            (loadGameState (some (some s))).progress.wordle.attempts
              = initialWordle.attempts)
          ∧ (∀ v, pw.attempts = some v →
            (loadGameState (some (some s))).progress.wordle.attempts = v)
          ∧ (pw.currentAttempt = none →
            (loadGameState (some (some s))).progress.wordle.currentAttempt
              = initialWordle.currentAttempt)
          ∧ (∀ v, pw.currentAttempt = some v →
            (loadGameState (some (some s))).progress.wordle.currentAttempt = v)))
    ∧ (∀ (s : ParsedSnapshot) (pr : ParsedProgress),
        s.progress = some pr → pr.wordle = none →
        (loadGameState (some (some s))).progress.wordle = initialWordle)
    ∧ (∀ (s : ParsedSnapshot) (pr : ParsedProgress) (pc : ParsedConnections),
        s.progress = some pr → pr.connections = some pc →
        ((pc.solved = none →
            (loadGameState (some (some s))).progress.connections.solved
              = initialConnections.solved)
          ∧ (∀ v, pc.solved = some v →
            (loadGameState (some (some s))).progress.connections.solved = v)
          ∧ (pc.attempts = none →
            (loadGameState (some (some s))).progress.connections.attempts
              = initialConnections.attempts)
          ∧ (∀ v, pc.attempts = some v →
            (loadGameState (some (some s))).progress.connections.attempts = v)
          ∧ (∀ l, pc.triedSelections = some (some l) →
            (loadGameState (some (some s))).progress.connections.triedSelections = l)
          ∧ (pc.triedSelections = none →
            (loadGameState (some (some s))).progress.connections.triedSelections = [])
          ∧ (pc.triedSelections = some none →
            (loadGameState (some (some s))).progress.connections.triedSelections = [])))
    ∧ (∀ (s : ParsedSnapshot) (pr : ParsedProgress),
        s.progress = some pr → pr.connections = none →
        (loadGameState (some (some s))).progress.connections = initialConnections)
    ∧ (∀ s : ParsedSnapshot, s.progress = none →
        (loadGameState (some (some s))).progress.wordle = initialWordle
          ∧ (loadGameState (some (some s))).progress.connections = initialConnections
          ∧ (loadGameState (some (some s))).progress.hegionit = none)
    ∧ (∀ s : ParsedSnapshot,
        (loadGameState (some (some s))).progress.hegionit
          = s.progress.bind ParsedProgress.hegionit)
    ∧ loadGameState none = initialLoaded
    ∧ loadGameState (some none) = initialLoaded := by
  refine ⟨?_, ?_, ?_, ?_, ?_, ?_, rfl, rfl⟩
  · intro s pr pw hs hw
    refine ⟨?_, ?_, ?_, ?_, ?_, ?_, ?_, ?_⟩ <;>
      first
        | (intro h; simp [loadGameState, mergeWordle, hs, hw, h])
        | (intro v h; simp [loadGameState, mergeWordle, hs, hw, h])
  · intro s pr hs hw
    simp [loadGameState, mergeWordle, hs, hw]
  · intro s pr pc hs hc
    refine ⟨?_, ?_, ?_, ?_, ?_, ?_, ?_⟩ <;>
      first
        | (intro h; simp [loadGameState, mergeConnections, hs, hc, h])
        | (intro v h; simp [loadGameState, mergeConnections, hs, hc, h])
  · intro s pr hs hc
    simp [loadGameState, mergeConnections, hs, hc]
  · intro s hs
    simp [loadGameState, mergeWordle, mergeConnections, hs]
  · intro s
    simp [loadGameState]

/-- Concrete parsed `wordle` record for the C2 witness. -/
def c2WitnessWordle : ParsedWordle :=
  { solved := some true, failed := none, attempts := none, currentAttempt := none }

/-- Concrete parsed `progress` for the C2 witness. -/
def c2WitnessProgress : ParsedProgress :=
  { hegionit := none, wordle := some c2WitnessWordle, connections := none }

/-- Concrete parsed snapshot for the C2 witness. -/
def c2WitnessSnapshot : ParsedSnapshot :=
  { currentPage := none, progress := some c2WitnessProgress, allCompleted := none }

/-- Witness for the amended C2: a parsable wordle field is kept on load. -/
theorem loadGameState_c2_amended_witness :
    (loadGameState (some (some c2WitnessSnapshot))).progress.wordle.solved = true :=
  (loadGameState_c2_amended.1 c2WitnessSnapshot c2WitnessProgress c2WitnessWordle
      rfl rfl).2.1 true rfl

/-! ## Word puzzle (`src/pages/WordlePage.tsx`) -/

/-- `FINAL_FORMS`: regular Hebrew letter to its final (end-of-word) form. -/
def FINAL_FORMS (c : Char) : Option Char :=
  if c = 'מ' then some 'ם'
  else if c = 'נ' then some 'ן'
  else if c = 'צ' then some 'ץ'
  else if c = 'פ' then some 'ף'
  else if c = 'כ' then some 'ך'
  else none

/-- `REGULAR_FORMS`: final Hebrew letter back to its regular form. -/
def REGULAR_FORMS (c : Char) : Option Char :=
  if c = 'ם' then some 'מ'
  else if c = 'ן' then some 'נ'
  else if c = 'ץ' then some 'צ'
  else if c = 'ף' then some 'פ'
  else if c = 'ך' then some 'כ'
  else none

/-- `REGULAR_FORMS[letter] || letter`: canonicalize one character. -/
def normalizeChar (c : Char) : Char := (REGULAR_FORMS c).getD c

/-- `normalizeWord`: canonicalize every character of a word. -/
def normalizeWord (w : List Char) : List Char := w.map normalizeChar

/-- Per-letter score of the word evaluator. -/
inductive LetterStatus
  | correct
  | wrongPlace
  | wrong
deriving Repr, DecidableEq

/-- One output cell of the word evaluator: the original guess glyph and its
score. -/
structure LetterState where
  letter : Char
  status : LetterStatus
deriving Repr, DecidableEq

/-- `wordLength` of the word page. -/
def wordLength : Nat := 5

/-- `maxAttempts` of the word page. -/
def maxAttemptsWordle : Nat := 6

/-- `applyFinalForms`: apply the final form to the first filled position
(the visually last letter in RTL), leave other letters alone, and join,
dropping empty cells. -/
def applyFinalForms (letters : List (Option Char)) : List Char :=
  let lastFilled := letters.findIdx? Option.isSome
  letters.enum.filterMap (fun p =>
    p.2.map (fun ch =>
      if lastFilled = some p.1 then (FINAL_FORMS ch).getD ch else ch))

/-- The persisted word-puzzle state acted on by submit and restart. -/
structure WordleState where
  attempts : List (List Char)
  solved : Bool
  failed : Bool
deriving Repr, DecidableEq

/-- `handleSubmit` of the word page, restricted to its effect on the
persisted word progress: guard on terminal flags, reject an incomplete
row, otherwise append the attempt and update the flags. -/
def wordleSubmit (target : List Char) (s : WordleState)
    (current : List (Option Char)) : WordleState :=
  if s.solved || s.failed then s
  else if (current.filterMap id).length ≠ wordLength then s
  else
    let w := applyFinalForms current
    let attempts' := s.attempts ++ [w]
    if normalizeWord w == normalizeWord target then
      { s with attempts := attempts', solved := true, failed := false }
    else if attempts'.length ≥ maxAttemptsWordle then
      { s with attempts := attempts', failed := true }
    else
      { s with attempts := attempts' }

/-- `restartWordle`: clear attempts and both terminal flags. -/
def restartWordle (_ : WordleState) : WordleState :=
  { attempts := [], solved := false, failed := false }

/-- The word-puzzle states reachable through submit and restart from the
default state. -/
inductive WordleReachable (target : List Char) : WordleState → Prop
  | init : WordleReachable target { attempts := [], solved := false, failed := false }
  | submit {s : WordleState} (current : List (Option Char)) :
      WordleReachable target s → WordleReachable target (wordleSubmit target s current)
  | restart {s : WordleState} :
      WordleReachable target s → WordleReachable target (restartWordle s)

/-- The inductive invariant of the word-puzzle state machine. -/
def WordleInv (target : List Char) (s : WordleState) : Prop :=
  (s.solved = true ↔ ∃ a ∈ s.attempts, normalizeWord a = normalizeWord target)
  ∧ (s.failed = true ↔ (s.attempts.length = maxAttemptsWordle
      ∧ ∀ a ∈ s.attempts, normalizeWord a ≠ normalizeWord target))
  ∧ s.attempts.length ≤ maxAttemptsWordle

theorem wordleInv_of_reachable {target : List Char} {s : WordleState}
    (h : WordleReachable target s) : WordleInv target s := by
  induction h with
  | init => simp [WordleInv, maxAttemptsWordle]
  | restart _ _ => simp [WordleInv, restartWordle, maxAttemptsWordle]
  | @submit s1 current _ ih =>
    obtain ⟨ihs, ihf, ihlen⟩ := ih
    unfold wordleSubmit
    by_cases h1 : (s1.solved || s1.failed) = true
    · rw [if_pos h1]
      exact ⟨ihs, ihf, ihlen⟩
    · rw [if_neg h1]
      rw [Bool.or_eq_true, not_or, Bool.not_eq_true, Bool.not_eq_true] at h1
      obtain ⟨hs, hf⟩ := h1
      by_cases h2 : (current.filterMap id).length ≠ wordLength
      · rw [if_pos h2]
        exact ⟨ihs, ihf, ihlen⟩
      · rw [if_neg h2]
        have hnomatch : ∀ a ∈ s1.attempts, normalizeWord a ≠ normalizeWord target := by
          intro a ha hmatch
          have := ihs.mpr ⟨a, ha, hmatch⟩
          rw [hs] at this
          exact Bool.noConfusion this
        have hlen6 : s1.attempts.length ≠ maxAttemptsWordle := by
          intro hl
          have := ihf.mpr ⟨hl, hnomatch⟩
          rw [hf] at this
          exact Bool.noConfusion this
        by_cases h3 :
            (normalizeWord (applyFinalForms current) == normalizeWord target) = true
        · rw [if_pos h3]
          refine ⟨?_, ?_, ?_⟩
          · exact ⟨fun _ => ⟨applyFinalForms current, by simp, by simpa using h3⟩,
              fun _ => rfl⟩
          · exact ⟨fun hx => Bool.noConfusion hx,
              fun hx => absurd (by simpa using h3)
                (hx.2 (applyFinalForms current) (by simp))⟩
          · have hlt : s1.attempts.length < maxAttemptsWordle :=
              Nat.lt_of_le_of_ne ihlen hlen6
            simp only [List.length_append, List.length_singleton]
            omega
        · rw [if_neg h3]
          have hnm : normalizeWord (applyFinalForms current) ≠ normalizeWord target := by
            simpa using h3
          have hall' : ∀ a ∈ s1.attempts ++ [applyFinalForms current],
              normalizeWord a ≠ normalizeWord target := by
            intro a ha
            rcases List.mem_append.mp ha with ha | ha
            · exact hnomatch a ha
            · rw [List.mem_singleton.mp ha]
              exact hnm
          have hsolved' : ¬∃ a ∈ s1.attempts ++ [applyFinalForms current],
              normalizeWord a = normalizeWord target := by
            rintro ⟨a, ha, hmat⟩
            exact hall' a ha hmat
          by_cases h4 :
              (s1.attempts ++ [applyFinalForms current]).length ≥ maxAttemptsWordle
          · rw [if_pos h4]
            have hlen' : (s1.attempts ++ [applyFinalForms current]).length
                = maxAttemptsWordle := by
              have hle : s1.attempts.length ≤ maxAttemptsWordle := ihlen
              simp only [List.length_append, List.length_singleton] at h4 ⊢
              omega
            refine ⟨?_, ?_, ?_⟩
            · rw [hs]
              exact ⟨fun hx => Bool.noConfusion hx, fun hx => absurd hx hsolved'⟩
            · exact ⟨fun _ => ⟨hlen', hall'⟩, fun _ => rfl⟩
            · exact le_of_eq hlen'
          · rw [if_neg h4]
            refine ⟨?_, ?_, ?_⟩
            · rw [hs]
              exact ⟨fun hx => Bool.noConfusion hx, fun hx => absurd hx hsolved'⟩
            · rw [hf]
              exact ⟨fun hx => Bool.noConfusion hx,
                fun hx => absurd (le_of_eq hx.1.symm) h4⟩
            · exact Nat.le_of_lt (Nat.lt_of_not_le h4)

/-- C7: in every word-puzzle state reachable through submit and restart,
`solved` and `failed` are never both true; `failed` holds exactly when the
number of submitted attempts equals `M = 6` and no attempt matched the
canonicalized target; and restart resets `solved`, `failed` and `attempts`. -/
theorem wordleSubmit_c7 (target : List Char) (s : WordleState)
    (h : WordleReachable target s) :
    ¬(s.solved = true ∧ s.failed = true)
    ∧ (s.failed = true ↔ (s.attempts.length = 6
        ∧ ∀ a ∈ s.attempts, normalizeWord a ≠ normalizeWord target))
    ∧ (restartWordle s).solved = false
    ∧ (restartWordle s).failed = false
    ∧ (restartWordle s).attempts = [] := by
  obtain ⟨ihs, ihf, -⟩ := wordleInv_of_reachable h
  refine ⟨?_, by simpa [maxAttemptsWordle] using ihf, rfl, rfl, rfl⟩
  rintro ⟨h1, h2⟩
  obtain ⟨a, ha, hm⟩ := ihs.mp h1
  exact (ihf.mp h2).2 a ha hm

/-- Witness for C7 at the freshly initialized state. -/
theorem wordleSubmit_c7_witness :
    ¬(({ attempts := [], solved := false, failed := false } : WordleState).solved = true
      ∧ ({ attempts := [], solved := false, failed := false } : WordleState).failed = true)
    ∧ (({ attempts := [], solved := false, failed := false } : WordleState).failed = true
      ↔ (({ attempts := [], solved := false, failed := false } : WordleState).attempts.length = 6
        ∧ ∀ a ∈ ({ attempts := [], solved := false, failed := false } : WordleState).attempts,
            normalizeWord a ≠ normalizeWord ['ש', 'ל', 'ו', 'ם', 'ש']))
    ∧ (restartWordle { attempts := [], solved := false, failed := false }).solved = false
    ∧ (restartWordle { attempts := [], solved := false, failed := false }).failed = false
    ∧ (restartWordle { attempts := [], solved := false, failed := false }).attempts = [] :=
  wordleSubmit_c7 ['ש', 'ל', 'ו', 'ם', 'ש']
    { attempts := [], solved := false, failed := false } WordleReachable.init

/-- C10: submitting when fewer than 5 letters are filled leaves the persisted
word progress (attempts, solved, failed) exactly unchanged. -/
theorem wordleSubmit_incomplete_noop (target : List Char) (s : WordleState)
    (current : List (Option Char))
    (h : (current.filterMap id).length < wordLength) :
    wordleSubmit target s current = s := by
  unfold wordleSubmit
  have hne : (current.filterMap id).length ≠ wordLength := Nat.ne_of_lt h
  by_cases h1 : (s.solved || s.failed) = true
  · rw [if_pos h1]
  · rw [if_neg h1, if_pos hne]

/-- Witness for C10: a 3-letter row is rejected without any state change. -/
theorem wordleSubmit_incomplete_noop_witness :
    (List.filterMap id [some 'ש', some 'ל', some 'ו', none, none]).length < wordLength
    ∧ wordleSubmit ['ש', 'ל', 'ו', 'ם', 'ש']
        { attempts := [], solved := false, failed := false }
        [some 'ש', some 'ל', some 'ו', none, none]
      = { attempts := [], solved := false, failed := false } :=
  ⟨by decide,
   wordleSubmit_incomplete_noop ['ש', 'ל', 'ו', 'ם', 'ש']
     { attempts := [], solved := false, failed := false }
     [some 'ש', some 'ל', some 'ו', none, none] (by decide)⟩

/-- The left-to-right search of the evaluator's second pass:
`targetLetters.findIndex((t, j) => t === letter && !usedIndices.has(j))`. -/
def findUnusedAux (c : Char) (used : List Nat) : List Char → Nat → Option Nat
  | [], _ => none
  | t :: rest, j =>
    if t == c && !(used.contains j) then some j
    else findUnusedAux c used rest (j + 1)

/-- `findUnusedTarget nt c used`: first target index holding `c` that is not
yet consumed. -/
def findUnusedTarget (nt : List Char) (c : Char) (used : List Nat) : Option Nat :=
  findUnusedAux c used nt 0

/-- Both passes of `evaluateWord` over the position list `l`, threading the
set of consumed target indices. All first-pass matches are placed in `used`
up front (the source completes pass 1 before pass 2 starts), so a matching
position is scored `correct` and a non-matching one searches the unconsumed
target letters. -/
def evalPass (word nw nt : List Char) : List Nat → List Nat → List LetterState × List Nat
  | [], used => ([], used)
  | i :: rest, used =>
    if nw.get? i == nt.get? i then
      let r := evalPass word nw nt rest used
      (⟨word.getD i ' ', .correct⟩ :: r.1, r.2)
    else
      match findUnusedTarget nt (nw.getD i ' ') used with
      | some j =>
        let r := evalPass word nw nt rest (j :: used)
        (⟨word.getD i ' ', .wrongPlace⟩ :: r.1, r.2)
      | none =>
        let r := evalPass word nw nt rest used
        (⟨word.getD i ' ', .wrong⟩ :: r.1, r.2)

/-- `evaluateWord`: canonicalize guess and target, seed the consumed set
with all exact matches, then score every position in order. The reported
glyph is the original (non-canonicalized) guess character. -/
def evaluateWord (word target : List Char) : List LetterState :=
  let nt := normalizeWord target
  let nw := normalizeWord word
  let used0 := (List.range word.length).filter (fun i => nw.get? i == nt.get? i)
  (evalPass word nw nt (List.range word.length) used0).1


theorem evalPass_fst_length (word nw nt : List Char) (l : List Nat) :
    ∀ used : List Nat, ((evalPass word nw nt l used).1).length = l.length := by
  induction l with
  | nil => intro used; rfl
  | cons i rest ih =>
    intro used
    unfold evalPass
    split
    · simp [ih]
    · split <;> simp [ih]

theorem evalPass_status (word nw nt : List Char) (l : List Nat) :
    ∀ (used : List Nat) (k : Nat) (st : LetterState),
      ((evalPass word nw nt l used).1).get? k = some st →
      (st.status = LetterStatus.correct
        ↔ (nw.get? (l.getD k 0) == nt.get? (l.getD k 0)) = true) := by
  induction l with
  | nil => intro used k st h; simp [evalPass] at h
  | cons i rest ih =>
    intro used k st h
    unfold evalPass at h
    by_cases hc : (nw.get? i == nt.get? i) = true
    · rw [if_pos hc] at h
      cases k with
      | zero =>
        simp only [List.get?] at h
        cases h
        simpa using hc
      | succ k =>
        simp only [List.get?] at h
        simpa using ih used k st h
    · rw [if_neg hc] at h
      cases hfind : findUnusedTarget nt (nw.getD i ' ') used with
      | some j =>
        rw [hfind] at h
        cases k with
        | zero =>
          simp only [List.get?] at h
          cases h
          simpa using hc
        | succ k =>
          simp only [List.get?] at h
          simpa using ih (j :: used) k st h
      | none =>
        rw [hfind] at h
        cases k with
        | zero =>
          simp only [List.get?] at h
          cases h
          simpa using hc
        | succ k =>
          simp only [List.get?] at h
          simpa using ih used k st h

theorem findUnusedAux_some {c : Char} {used : List Nat} :
    ∀ (l : List Char) (j0 j : Nat), findUnusedAux c used l j0 = some j →
      ∃ k, k < l.length ∧ j = j0 + k ∧ l.get? k = some c ∧ used.contains j = false := by
  intro l
  induction l with
  | nil => intro j0 j h; simp [findUnusedAux] at h
  | cons t rest ih =>
    intro j0 j h
    unfold findUnusedAux at h
    by_cases hc : (t == c && !(used.contains j0)) = true
    · rw [if_pos hc] at h
      cases h
      rw [Bool.and_eq_true, Bool.not_eq_true', beq_iff_eq] at hc
      exact ⟨0, by simp, by omega, by simp [hc.1], hc.2⟩
    · rw [if_neg hc] at h
      obtain ⟨k, hk, hj, hget, hcon⟩ := ih (j0 + 1) j h
      exact ⟨k + 1, by simpa using hk, by omega, by simpa using hget, hcon⟩

theorem findUnusedTarget_some {nt : List Char} {c : Char} {used : List Nat} {j : Nat}
    (h : findUnusedTarget nt c used = some j) :
    nt.get? j = some c ∧ used.contains j = false ∧ j < nt.length := by
  obtain ⟨k, hk, hj, hget, hcon⟩ := findUnusedAux_some nt 0 j h
  have : j = k := by omega
  subst this
  exact ⟨hget, hcon, hk⟩

/-- Number of indices in `js` at which `nt` holds the letter `c`. -/
def countT (nt : List Char) (c : Char) (js : List Nat) : Nat :=
  (js.filter (fun j => nt.get? j == some c)).length

/-- Number of positions (paired positionally with the evaluator output) whose
canonical guess letter is `c` and whose status is `wrongPlace`. -/
def wpCount (c : Char) (nw : List Char) : List Nat → List LetterState → Nat
  | i :: l, st :: out =>
      (if nw.getD i ' ' == c && st.status == LetterStatus.wrongPlace then 1 else 0)
        + wpCount c nw l out
  | _, _ => 0

/-- Like `wpCount` for status `correct`. -/
def cmCount (c : Char) (nw : List Char) : List Nat → List LetterState → Nat
  | i :: l, st :: out =>
      (if nw.getD i ' ' == c && st.status == LetterStatus.correct then 1 else 0)
        + cmCount c nw l out
  | _, _ => 0

/-- Number of positions whose canonical guess letter is `c` and whose status
is `correct` or `wrongPlace`. -/
def scCount (c : Char) (nw : List Char) : List Nat → List LetterState → Nat
  | i :: l, st :: out =>
      (if nw.getD i ' ' == c
          && (st.status == LetterStatus.correct || st.status == LetterStatus.wrongPlace)
        then 1 else 0) + scCount c nw l out
  | _, _ => 0

theorem scCount_eq_cm_add_wp (c : Char) (nw : List Char) :
    ∀ (l : List Nat) (out : List LetterState),
      scCount c nw l out = cmCount c nw l out + wpCount c nw l out := by
  intro l
  induction l with
  | nil => intro out; cases out <;> rfl
  | cons i rest ih =>
    intro out
    cases out with
    | nil => rfl
    | cons st out =>
      unfold scCount cmCount wpCount
      rw [ih]
      cases hst : st.status <;> by_cases hc : (nw.getD i ' ' == c) = true <;>
        simp [hst, hc] <;> omega

theorem wpCount_cons (c : Char) (nw : List Char) (i : Nat) (l : List Nat)
    (st : LetterState) (out : List LetterState) :
    wpCount c nw (i :: l) (st :: out)
      = (if (nw.getD i ' ' == c && st.status == LetterStatus.wrongPlace) = true
          then 1 else 0) + wpCount c nw l out := rfl

theorem evalPass_cons_of_eq {word nw nt : List Char} {i : Nat} {rest used : List Nat}
    (hc : (nw.get? i == nt.get? i) = true) :
    evalPass word nw nt (i :: rest) used
      = (⟨word.getD i ' ', .correct⟩ :: (evalPass word nw nt rest used).1,
         (evalPass word nw nt rest used).2) := by
  conv_lhs => unfold evalPass
  rw [if_pos hc]

theorem evalPass_cons_of_found {word nw nt : List Char} {i j : Nat} {rest used : List Nat}
    (hc : ¬(nw.get? i == nt.get? i) = true)
    (hfind : findUnusedTarget nt (nw.getD i ' ') used = some j) :
    evalPass word nw nt (i :: rest) used
      = (⟨word.getD i ' ', .wrongPlace⟩ :: (evalPass word nw nt rest (j :: used)).1,
         (evalPass word nw nt rest (j :: used)).2) := by
  conv_lhs => unfold evalPass
  rw [if_neg hc, hfind]

theorem evalPass_cons_of_notfound {word nw nt : List Char} {i : Nat} {rest used : List Nat}
    (hc : ¬(nw.get? i == nt.get? i) = true)
    (hfind : findUnusedTarget nt (nw.getD i ' ') used = none) :
    evalPass word nw nt (i :: rest) used
      = (⟨word.getD i ' ', .wrong⟩ :: (evalPass word nw nt rest used).1,
         (evalPass word nw nt rest used).2) := by
  conv_lhs => unfold evalPass
  rw [if_neg hc, hfind]

theorem evalPass_used_invariant (word nw nt : List Char) (c : Char) (l : List Nat) :
    ∀ used : List Nat, used.Nodup →
      ((evalPass word nw nt l used).2.Nodup
       ∧ (∀ j ∈ used, j ∈ (evalPass word nw nt l used).2)
       ∧ (∀ j ∈ (evalPass word nw nt l used).2, j ∈ used ∨ j < nt.length)
       ∧ countT nt c (evalPass word nw nt l used).2
           = countT nt c used + wpCount c nw l (evalPass word nw nt l used).1) := by
  induction l with
  | nil =>
    intro used hnd
    exact ⟨hnd, fun j hj => hj, fun j hj => Or.inl hj, by simp [evalPass, wpCount]⟩
  | cons i rest ih =>
    intro used hnd
    by_cases hc : (nw.get? i == nt.get? i) = true
    · obtain ⟨h1, h2, h3, h4⟩ := ih used hnd
      rw [evalPass_cons_of_eq hc]
      dsimp only
      refine ⟨h1, h2, h3, ?_⟩
      rw [h4, wpCount_cons]
      simp
    · cases hfind : findUnusedTarget nt (nw.getD i ' ') used with
      | some j =>
        obtain ⟨hjget, hjcon, hjlt⟩ := findUnusedTarget_some hfind
        have hjnot : j ∉ used := by simpa using hjcon
        have hnd2 : (j :: used).Nodup := List.nodup_cons.mpr ⟨hjnot, hnd⟩
        obtain ⟨h1, h2, h3, h4⟩ := ih (j :: used) hnd2
        rw [evalPass_cons_of_found hc hfind]
        dsimp only
        refine ⟨h1, ?_, ?_, ?_⟩
        · intro j2 hj2
          exact h2 j2 (List.mem_cons_of_mem _ hj2)
        · intro j2 hj2
          rcases h3 j2 hj2 with hj3 | hj3
          · rcases List.mem_cons.mp hj3 with rfl | hj4
            · exact Or.inr hjlt
            · exact Or.inl hj4
          · exact Or.inr hj3
        · have hkey : (nt.get? j == some c) = (nw.getD i ' ' == c) := by
            rw [hjget]
            rfl
          have hhead : countT nt c (j :: used)
              = countT nt c used + (if (nw.getD i ' ' == c) = true then 1 else 0) := by
            unfold countT
            simp only [List.filter_cons]
            rw [hkey]
            by_cases hcc : (nw.getD i ' ' == c) = true
            · rw [if_pos hcc, if_pos hcc]
              simp [Nat.add_comm]
            · rw [if_neg hcc, if_neg hcc]
              simp
          rw [h4, hhead, wpCount_cons]
          have hind : (if (nw.getD i ' ' == c
                && (LetterStatus.wrongPlace == LetterStatus.wrongPlace)) = true
              then 1 else 0)
              = (if (nw.getD i ' ' == c) = true then 1 else 0) := by
            simp
          rw [hind]
          omega
      | none =>
        obtain ⟨h1, h2, h3, h4⟩ := ih used hnd
        rw [evalPass_cons_of_notfound hc hfind]
        dsimp only
        refine ⟨h1, h2, h3, ?_⟩
        rw [h4, wpCount_cons]
        simp

theorem count_via_range (c : Char) (xs : List Char) :
    ((List.range xs.length).filter (fun j => xs.get? j == some c)).length = xs.count c := by
  induction xs with
  | nil => rfl
  | cons a l ih =>
    have hcomp : ((fun j => (a :: l).get? j == some c) ∘ (· + 1))
        = (fun j => l.get? j == some c) := rfl
    have hhead : ((a :: l).get? 0 == some c) = (a == c) := rfl
    rw [List.length_cons, List.range_succ_eq_map, List.filter_cons, List.filter_map,
      hcomp, hhead]
    by_cases hac : (a == c) = true
    · rw [if_pos hac, List.length_cons, List.length_map, ih, List.count_cons,
        if_pos hac]
    · rw [if_neg hac, List.length_map, ih, List.count_cons, if_neg hac]
      omega

theorem countT_le_count (nt : List Char) (c : Char) (js : List Nat)
    (hnd : js.Nodup) (hlt : ∀ j ∈ js, j < nt.length) :
    countT nt c js ≤ nt.count c := by
  rw [← count_via_range c nt]
  unfold countT
  have h1 : (js.filter (fun j => nt.get? j == some c)).Nodup := hnd.filter _
  have h2 : ((List.range nt.length).filter (fun j => nt.get? j == some c)).Nodup :=
    (List.nodup_range _).filter _
  have hsub : ∀ x ∈ js.filter (fun j => nt.get? j == some c),
      x ∈ (List.range nt.length).filter (fun j => nt.get? j == some c) := by
    intro x hx
    rw [List.mem_filter] at hx ⊢
    exact ⟨List.mem_range.mpr (hlt x hx.1), hx.2⟩
  calc (js.filter (fun j => nt.get? j == some c)).length
      = (js.filter (fun j => nt.get? j == some c)).toFinset.card :=
        (List.toFinset_card_of_nodup h1).symm
    _ ≤ ((List.range nt.length).filter (fun j => nt.get? j == some c)).toFinset.card := by
        apply Finset.card_le_card
        intro x hx
        rw [List.mem_toFinset] at hx ⊢
        exact hsub x hx
    _ = ((List.range nt.length).filter (fun j => nt.get? j == some c)).length :=
        List.toFinset_card_of_nodup h2

theorem cmCount_cons (c : Char) (nw : List Char) (i : Nat) (l : List Nat)
    (st : LetterState) (out : List LetterState) :
    cmCount c nw (i :: l) (st :: out)
      = (if (nw.getD i ' ' == c && st.status == LetterStatus.correct) = true
          then 1 else 0) + cmCount c nw l out := rfl

theorem cmCount_evalPass (word nw nt : List Char) (c : Char) (l : List Nat) :
    ∀ used : List Nat,
      cmCount c nw l (evalPass word nw nt l used).1
        = (l.filter
            (fun i => (nw.get? i == nt.get? i) && (nw.getD i ' ' == c))).length := by
  induction l with
  | nil => intro used; rfl
  | cons i rest ih =>
    intro used
    by_cases hc : (nw.get? i == nt.get? i) = true
    · rw [evalPass_cons_of_eq hc]
      dsimp only
      rw [cmCount_cons, ih used]
      have hcond : ((nw.get? i == nt.get? i) && (nw.getD i ' ' == c))
          = (nw.getD i ' ' == c) := by
        rw [hc, Bool.true_and]
      simp only [List.filter_cons]
      rw [hcond]
      have hindc : (if (nw.getD i ' ' == c
            && (LetterStatus.correct == LetterStatus.correct)) = true
          then 1 else 0) = (if (nw.getD i ' ' == c) = true then 1 else 0) := by
        simp
      rw [hindc]
      by_cases hcc : (nw.getD i ' ' == c) = true
      · rw [if_pos hcc, if_pos hcc]
        simp [Nat.add_comm]
      · rw [if_neg hcc, if_neg hcc]
        simp
    · have hcf : (nw.get? i == nt.get? i) = false := by
        rwa [Bool.not_eq_true] at hc
      have hfilter : ((nw.get? i == nt.get? i) && (nw.getD i ' ' == c)) = false := by
        rw [hcf, Bool.false_and]
      cases hfind : findUnusedTarget nt (nw.getD i ' ') used with
      | some j =>
        rw [evalPass_cons_of_found hc hfind]
        dsimp only
        rw [cmCount_cons, ih (j :: used)]
        simp only [List.filter_cons]
        rw [hfilter]
        simp
      | none =>
        rw [evalPass_cons_of_notfound hc hfind]
        dsimp only
        rw [cmCount_cons, ih used]
        simp only [List.filter_cons]
        rw [hfilter]
        simp

theorem get?_eq_some_getD {α : Type} {l : List α} {i : Nat} (d : α)
    (h : i < l.length) : l.get? i = some (l.getD i d) := by
  obtain ⟨a, ha⟩ : ∃ a, l.get? i = some a := by
    rw [List.get?_eq_get h]
    exact ⟨_, rfl⟩
  rw [List.getD_eq_get?, ha]
  rfl

theorem countT_filter_eq (word target : List Char) (c : Char) :
    countT (normalizeWord target) c
        ((List.range word.length).filter
          (fun i => (normalizeWord word).get? i == (normalizeWord target).get? i))
      = ((List.range word.length).filter
          (fun i => ((normalizeWord word).get? i == (normalizeWord target).get? i)
            && ((normalizeWord word).getD i ' ' == c))).length := by
  unfold countT
  rw [List.filter_filter]
  congr 1
  apply List.filter_congr
  intro j hj
  have hjlt : j < word.length := List.mem_range.mp hj
  by_cases hc : ((normalizeWord word).get? j == (normalizeWord target).get? j) = true
  · have hjw : j < (normalizeWord word).length := by
      simpa [normalizeWord] using hjlt
    have hnwj : (normalizeWord word).get? j
        = some ((normalizeWord word).getD j ' ') := get?_eq_some_getD ' ' hjw
    have heq : (normalizeWord word).get? j = (normalizeWord target).get? j := by
      simpa using hc
    have hntj : (normalizeWord target).get? j
        = some ((normalizeWord word).getD j ' ') := by
      rw [← heq]
      exact hnwj
    rw [hc, hntj]
    simp only [Bool.and_true, Bool.true_and]
    rfl
  · have hcf : ((normalizeWord word).get? j == (normalizeWord target).get? j)
        = false := by
      rwa [Bool.not_eq_true] at hc
    rw [hcf, Bool.false_and, Bool.and_false]

/-- C3: for every guess and target of equal length `L`, `evaluateWord`
returns exactly `L` cells; a position is scored `correct` exactly when the
canonicalized guess and target letters at that position agree; and for every
letter `c`, the number of positions whose canonicalized guess letter is `c`
and whose status is `correct` or `wrongPlace` never exceeds the number of
occurrences of `c` in the canonicalized target. -/
theorem evaluateWord_c3 (word target : List Char) (h : word.length = target.length) :
    (evaluateWord word target).length = target.length
    ∧ (∀ (i : Nat) (st : LetterState), (evaluateWord word target).get? i = some st →
        (st.status = LetterStatus.correct
          ↔ normalizeChar (word.getD i ' ') = normalizeChar (target.getD i ' ')))
    ∧ (∀ c : Char,
        scCount c (normalizeWord word) (List.range word.length)
            (evaluateWord word target)
          ≤ (normalizeWord target).count c) := by
  refine ⟨?_, ?_, ?_⟩
  · simp only [evaluateWord]
    rw [evalPass_fst_length, List.length_range, h]
  · intro i st hst
    simp only [evaluateWord] at hst
    have hstat := evalPass_status word (normalizeWord word) (normalizeWord target)
      (List.range word.length) _ i st hst
    have hiL : i < word.length := by
      have hlen := evalPass_fst_length word (normalizeWord word) (normalizeWord target)
        (List.range word.length)
        ((List.range word.length).filter
          (fun i => (normalizeWord word).get? i == (normalizeWord target).get? i))
      obtain ⟨hlt, -⟩ := List.get?_eq_some.mp hst
      rwa [hlen, List.length_range] at hlt
    have hgetD : (List.range word.length).getD i 0 = i := by
      rw [List.getD_eq_get?, List.get?_range hiL]
      rfl
    rw [hgetD] at hstat
    have hjw : i < (normalizeWord word).length := by
      simpa [normalizeWord] using hiL
    have hjt : i < (normalizeWord target).length := by
      simp only [normalizeWord, List.length_map]
      omega
    have hnw : (normalizeWord word).get? i
        = some (normalizeChar (word.getD i ' ')) := by
      rw [get?_eq_some_getD ' ' hjw]
      congr 1
      rw [List.getD_eq_get?, List.getD_eq_get?, normalizeWord, List.get?_map,
        List.get?_eq_get hiL]
      rfl
    have hiT : i < target.length := by omega
    have hnt : (normalizeWord target).get? i
        = some (normalizeChar (target.getD i ' ')) := by
      rw [get?_eq_some_getD ' ' hjt]
      congr 1
      rw [List.getD_eq_get?, List.getD_eq_get?, normalizeWord, List.get?_map,
        List.get?_eq_get hiT]
      rfl
    rw [hnw, hnt] at hstat
    refine hstat.trans ?_
    constructor
    · intro hb
      simpa using hb
    · intro he
      rw [he]
      simp
  · intro c
    have hnd0 : ((List.range word.length).filter
        (fun i => (normalizeWord word).get? i == (normalizeWord target).get? i)).Nodup :=
      (List.nodup_range _).filter _
    obtain ⟨hnd, hmem, hrange, hcount⟩ :=
      evalPass_used_invariant word (normalizeWord word) (normalizeWord target) c
        (List.range word.length)
        ((List.range word.length).filter
          (fun i => (normalizeWord word).get? i == (normalizeWord target).get? i)) hnd0
    have hlt : ∀ j ∈ (evalPass word (normalizeWord word) (normalizeWord target)
        (List.range word.length)
        ((List.range word.length).filter
          (fun i => (normalizeWord word).get? i == (normalizeWord target).get? i))).2,
        j < (normalizeWord target).length := by
      intro j hj
      rcases hrange j hj with hj0 | hj0
      · rw [List.mem_filter] at hj0
        obtain ⟨hjr, hjc⟩ := hj0
        have hjL : j < word.length := List.mem_range.mp hjr
        by_contra hge
        push_neg at hge
        have hnone : (normalizeWord target).get? j = none :=
          List.get?_eq_none.mpr hge
        have heq : (normalizeWord word).get? j = (normalizeWord target).get? j := by
          simpa using hjc
        rw [hnone] at heq
        have hjw : j < (normalizeWord word).length := by
          simpa [normalizeWord] using hjL
        rw [get?_eq_some_getD ' ' hjw] at heq
        exact Option.noConfusion heq
      · exact hj0
    have hble := countT_le_count (normalizeWord target) c _ hnd hlt
    rw [scCount_eq_cm_add_wp]
    simp only [evaluateWord]
    rw [cmCount_evalPass word (normalizeWord word) (normalizeWord target) c
      (List.range word.length)]
    rw [← countT_filter_eq word target c]
    omega

/-- Witness for C3 at a concrete guess/target pair with a repeated letter. -/
theorem evaluateWord_c3_witness :
    (evaluateWord ['B', 'B', 'A'] ['A', 'B', 'C']).length = 3
    ∧ scCount 'B' (normalizeWord ['B', 'B', 'A']) (List.range 3)
        (evaluateWord ['B', 'B', 'A'] ['A', 'B', 'C'])
      ≤ (normalizeWord ['A', 'B', 'C']).count 'B' :=
  ⟨(evaluateWord_c3 ['B', 'B', 'A'] ['A', 'B', 'C'] rfl).1,
   (evaluateWord_c3 ['B', 'B', 'A'] ['A', 'B', 'C'] rfl).2.2 'B'⟩

/-! ## Riddle puzzle (the feature-complete `HegionitPage` variant) -/

def answerWithoutSpaces (na : List Char) : List Char := na.filter (fun c => c ≠ ' ')

/-- Start index and length of each word segment, accumulating a cursor over
the space-stripped storage indices. -/
def wordSegmentsAux : List (List Char) → Nat → List (Nat × Nat)
  | [], _ => []
  | w :: rest, cursor => (cursor, w.length) :: wordSegmentsAux rest (cursor + w.length)

/-- `getLogicalWordSegments`: segments of the answer in logical word order. -/
def getLogicalWordSegments (na : List Char) : List (Nat × Nat) :=
  wordSegmentsAux (na.splitOn ' ') 0

/-- `getReadingOrderIndices`: for each word segment, its storage indices from
`endIndex` down to `startIndex` (each word is rendered RTL). -/
def getReadingOrderIndices (na : List Char) : List Nat :=
  (getLogicalWordSegments na).flatMap (fun s => (List.range' s.1 s.2).reverse)

/-- `isEndOfWordIndex`: a segment's `startIndex` is the visually last box of
its word. -/
def isEndOfWordIndex (na : List Char) (i : Nat) : Bool :=
  (getLogicalWordSegments na).any (fun s => s.1 == i)

/-- `normalizeHebrewFinalForm` on a single non-blank character (the only way
the call sites invoke it): force the final letter form at an end-of-word
index and the regular form elsewhere. -/
def normalizeHebrewFinalForm (na : List Char) (c : Char) (i : Nat) : Char :=
  if isEndOfWordIndex na i then (FINAL_FORMS c).getD c
  else (REGULAR_FORMS c).getD c

/-- `getCorrectIndices`: positions where the entered character exactly equals
the answer character. -/
def getCorrectIndices (letters : List (Option Char)) (ans : List Char) : List Nat :=
  (List.range (min letters.length ans.length)).filter
    (fun i => match letters.getD i none with
              | some ch => ans.get? i == some ch
              | none => false)

/-- The letter boxes and locked set of the current riddle. -/
structure RiddleBoard where
  letters : List (Option Char)
  locked : Finset Nat
deriving DecidableEq

/-- `inputLetters.join('')`: concatenation in which empty cells vanish. -/
def typedWord (letters : List (Option Char)) : List Char := letters.filterMap id

/-- `handleSubmit` of the riddle page on an unsolved riddle, restricted to
the board: an exact match reports solved (the board is then handled by the
solved-snapshot path); otherwise every position whose entered character
equals the answer character is filled with the normalized answer character
and locked. -/
def riddleSubmit (na : List Char) (b : RiddleBoard) : RiddleBoard × Bool :=
  let ans := answerWithoutSpaces na
  if typedWord b.letters == ans then (b, true)
  else
    let correctIndices := getCorrectIndices b.letters ans
    if correctIndices.isEmpty then (b, false)
    else
      ({ letters := correctIndices.foldl
            (fun ls i =>
              ls.set i (some (normalizeHebrewFinalForm na (ans.getD i ' ') i)))
            b.letters,
         locked := b.locked ∪ correctIndices.toFinset }, false)

/-- Membership characterization of `getCorrectIndices`. -/
theorem mem_getCorrectIndices {letters : List (Option Char)} {ans : List Char}
    {i : Nat} :
    i ∈ getCorrectIndices letters ans
      ↔ ∃ ch, letters.getD i none = some ch ∧ ans.get? i = some ch := by
  unfold getCorrectIndices
  rw [List.mem_filter, List.mem_range]
  constructor
  · rintro ⟨hlt, hp⟩
    cases hget : letters.getD i none with
    | none =>
      rw [hget] at hp
      exact absurd hp (by simp)
    | some ch =>
      rw [hget] at hp
      exact ⟨ch, rfl, by simpa using hp⟩
  · rintro ⟨ch, hget, hans⟩
    have h1 : i < letters.length := by
      by_contra hge
      push_neg at hge
      rw [List.getD_eq_default _ _ hge] at hget
      exact Option.noConfusion hget
    have h2 : i < ans.length := by
      by_contra hge
      push_neg at hge
      rw [List.get?_eq_none.mpr hge] at hans
      exact Option.noConfusion hans
    refine ⟨by omega, ?_⟩
    rw [hget]
    simpa using hans

/-- Reading a just-set position. -/
theorem getD_set_self : ∀ (ls : List (Option Char)) (j : Nat) (v : Option Char),
    j < ls.length → (ls.set j v).getD j none = v := by
  intro ls
  induction ls with
  | nil => intro j v h; simp at h
  | cons a ls ih =>
    intro j v h
    cases j with
    | zero => rfl
    | succ j => exact ih j v (by simpa using h)

/-- Setting one position leaves the others unchanged. -/
theorem getD_set_ne : ∀ (ls : List (Option Char)) (j i : Nat) (v : Option Char),
    i ≠ j → (ls.set j v).getD i none = ls.getD i none := by
  intro ls
  induction ls with
  | nil => intro j i v h; simp
  | cons a ls ih =>
    intro j i v h
    cases j with
    | zero =>
      cases i with
      | zero => exact absurd rfl h
      | succ i => rfl
    | succ j =>
      cases i with
      | zero => rfl
      | succ i => exact ih j i v (fun he => h (by rw [he]))

/-- Folding `set` over distinct in-range indices writes each index its value
and leaves all other positions unchanged. -/
theorem foldl_set_spec (f : Nat → Option Char) :
    ∀ (idxs : List Nat) (ls : List (Option Char)), idxs.Nodup →
      (∀ i ∈ idxs, i < ls.length) →
      ((∀ i ∈ idxs,
          (idxs.foldl (fun acc j => acc.set j (f j)) ls).getD i none = f i)
        ∧ (∀ i, i ∉ idxs →
          (idxs.foldl (fun acc j => acc.set j (f j)) ls).getD i none
            = ls.getD i none)) := by
  intro idxs
  induction idxs with
  | nil => intro ls _ _; exact ⟨fun i hi => absurd hi (List.not_mem_nil i), fun i _ => rfl⟩
  | cons j rest ih =>
    intro ls hnd hbound
    rw [List.nodup_cons] at hnd
    obtain ⟨hjrest, hndrest⟩ := hnd
    have hbound2 : ∀ i ∈ rest, i < (ls.set j (f j)).length := by
      intro i hi
      rw [List.length_set]
      exact hbound i (List.mem_cons_of_mem _ hi)
    obtain ⟨hin, hout⟩ := ih (ls.set j (f j)) hndrest hbound2
    constructor
    · intro i hi
      rcases List.mem_cons.mp hi with rfl | hi2
      · rw [List.foldl_cons, hout i hjrest,
          getD_set_self ls i (f i) (hbound i (List.mem_cons_self _ _))]
      · rw [List.foldl_cons]
        exact hin i hi2
    · intro i hi
      rw [List.mem_cons, not_or] at hi
      rw [List.foldl_cons, hout i hi.2, getD_set_ne ls j i (f j) hi.1]

/-- C5: submitting a guess that is not the full correct answer locks exactly
the previously locked positions plus every position whose entered character
equals the answer character there; each such position is filled with the
answer's character in its proper final/regular form, and no previously
locked position is ever unlocked. -/
theorem riddleSubmit_c5 (na : List Char) (b : RiddleBoard)
    (hw : typedWord b.letters ≠ answerWithoutSpaces na) :
    (∀ i : Nat, i ∈ (riddleSubmit na b).1.locked ↔
        (i ∈ b.locked ∨ ∃ ch, b.letters.getD i none = some ch
            ∧ (answerWithoutSpaces na).get? i = some ch))
    ∧ (∀ i ∈ getCorrectIndices b.letters (answerWithoutSpaces na),
        (riddleSubmit na b).1.letters.getD i none
          = some (normalizeHebrewFinalForm na ((answerWithoutSpaces na).getD i ' ') i))
    ∧ b.locked ⊆ (riddleSubmit na b).1.locked := by
  have hbeq : (typedWord b.letters == answerWithoutSpaces na) = false := by
    simpa using hw
  simp only [riddleSubmit]
  rw [hbeq]
  simp only [Bool.false_eq_true, if_false]
  by_cases hempty : (getCorrectIndices b.letters (answerWithoutSpaces na)).isEmpty = true
  · rw [if_pos hempty]
    have hnil : getCorrectIndices b.letters (answerWithoutSpaces na) = [] :=
      List.isEmpty_iff.mp hempty
    refine ⟨?_, ?_, fun x hx => hx⟩
    · intro i
      constructor
      · exact Or.inl
      · rintro (hmem | ⟨ch, hget, hans⟩)
        · exact hmem
        · have : i ∈ getCorrectIndices b.letters (answerWithoutSpaces na) :=
            mem_getCorrectIndices.mpr ⟨ch, hget, hans⟩
          rw [hnil] at this
          exact absurd this (List.not_mem_nil i)
    · intro i hi
      rw [hnil] at hi
      exact absurd hi (List.not_mem_nil i)
  · rw [if_neg hempty]
    have hnd : (getCorrectIndices b.letters (answerWithoutSpaces na)).Nodup :=
      (List.nodup_range _).filter _
    have hbound : ∀ i ∈ getCorrectIndices b.letters (answerWithoutSpaces na),
        i < b.letters.length := by
      intro i hi
      unfold getCorrectIndices at hi
      rw [List.mem_filter, List.mem_range] at hi
      omega
    obtain ⟨hin, -⟩ := foldl_set_spec
      (fun i => some (normalizeHebrewFinalForm na
        ((answerWithoutSpaces na).getD i ' ') i))
      (getCorrectIndices b.letters (answerWithoutSpaces na)) b.letters hnd hbound
    refine ⟨?_, ?_, ?_⟩
    · intro i
      simp only [Finset.mem_union, List.mem_toFinset]
      rw [mem_getCorrectIndices]
    · intro i hi
      exact hin i hi
    · exact Finset.subset_union_left

/-- Witness for C5: one matching position of a wrong guess is locked and
filled. -/
theorem riddleSubmit_c5_witness :
    ((riddleSubmit ['א', 'ב'] ⟨[some 'א', some 'ג'], ∅⟩).1.letters.getD 0 none
        = some (normalizeHebrewFinalForm ['א', 'ב']
            ((answerWithoutSpaces ['א', 'ב']).getD 0 ' ') 0))
    ∧ (∅ : Finset Nat) ⊆ (riddleSubmit ['א', 'ב'] ⟨[some 'א', some 'ג'], ∅⟩).1.locked :=
  ⟨(riddleSubmit_c5 ['א', 'ב'] ⟨[some 'א', some 'ג'], ∅⟩ (by decide)).2.1 0 (by decide),
   (riddleSubmit_c5 ['א', 'ב'] ⟨[some 'א', some 'ג'], ∅⟩ (by decide)).2.2⟩

/-- The reported outcome of the hint operation: applied, the "no empty
boxes" error message, or the two-hint cap message. -/
inductive HintOutcome
  | applied
  | noEmptyBoxes
  | hintCapReached
deriving Repr, DecidableEq

/-- The state the hint operation acts on: boxes, locks and the hint count of
the current riddle. -/
structure RiddleHintState where
  letters : List (Option Char)
  locked : Finset Nat
  hintsUsed : Nat
deriving DecidableEq

/-- `handleHint` of the riddle page on an unsolved riddle: enforce the cap of
2, find the first empty unlocked position in reading order, fill it with the
normalized answer letter, lock it and count the hint; report an error and
change nothing when the cap is reached or no empty position exists. -/
def riddleHint (na : List Char) (s : RiddleHintState) : RiddleHintState × HintOutcome :=
  if s.hintsUsed ≥ 2 then (s, .hintCapReached)
  else
    let ans := answerWithoutSpaces na
    match (getReadingOrderIndices na).find?
        (fun i => !(decide (i ∈ s.locked)) && (s.letters.getD i none).isNone) with
    | none => (s, .noEmptyBoxes)
    | some t =>
      ({ letters := s.letters.set t
            (some (normalizeHebrewFinalForm na (ans.getD t ' ') t)),
         locked := insert t s.locked,
         hintsUsed := s.hintsUsed + 1 }, .applied)

/-- A successful `find?` returns the first element satisfying the
predicate. -/
theorem find?_first {α : Type} {p : α → Bool} :
    ∀ {l : List α} {a : α}, l.find? p = some a →
      ∃ k, l.get? k = some a ∧ p a = true
        ∧ ∀ k2, k2 < k → ∀ b, l.get? k2 = some b → p b = false := by
  intro l
  induction l with
  | nil => intro a h; simp [List.find?] at h
  | cons x xs ih =>
    intro a h
    by_cases hp : p x = true
    · rw [List.find?_cons_of_pos _ hp] at h
      cases h
      exact ⟨0, rfl, hp, fun k2 hk2 => absurd hk2 (by omega)⟩
    · rw [List.find?_cons_of_neg _ (by simpa using hp)] at h
      obtain ⟨k, hget, hpa, hfirst⟩ := ih h
      refine ⟨k + 1, hget, hpa, ?_⟩
      intro k2 hk2 b hb
      cases k2 with
      | zero =>
        simp only [List.get?] at hb
        cases hb
        simpa using hp
      | succ k2 =>
        simp only [List.get?] at hb
        exact hfirst k2 (by omega) b hb

/-- C6: with `hintsUsed < 2`, the hint operation fills and locks the first
empty unlocked position in canonical reading order and increments the count
by exactly 1; if no empty unlocked position exists it reports the
"no empty boxes" error and changes nothing; at the cap it reports the cap
error and changes nothing. -/
theorem riddleHint_c6 :
    (∀ (na : List Char) (s : RiddleHintState) (t : Nat),
        s.hintsUsed < 2 →
        (getReadingOrderIndices na).find?
            (fun i => !(decide (i ∈ s.locked)) && (s.letters.getD i none).isNone)
          = some t →
        ((riddleHint na s).2 = HintOutcome.applied
          ∧ (riddleHint na s).1.hintsUsed = s.hintsUsed + 1
          ∧ (riddleHint na s).1.locked = insert t s.locked
          ∧ (riddleHint na s).1.letters
              = s.letters.set t (some (normalizeHebrewFinalForm na
                  ((answerWithoutSpaces na).getD t ' ') t))
          ∧ t ∉ s.locked ∧ s.letters.getD t none = none
          ∧ ∃ k, (getReadingOrderIndices na).get? k = some t
              ∧ ∀ k2, k2 < k → ∀ u, (getReadingOrderIndices na).get? k2 = some u →
                  ¬(u ∉ s.locked ∧ s.letters.getD u none = none)))
    ∧ (∀ (na : List Char) (s : RiddleHintState),
        s.hintsUsed < 2 →
        (∀ i ∈ getReadingOrderIndices na,
          ¬(i ∉ s.locked ∧ s.letters.getD i none = none)) →
        riddleHint na s = (s, HintOutcome.noEmptyBoxes))
    ∧ (∀ (na : List Char) (s : RiddleHintState),
        2 ≤ s.hintsUsed → riddleHint na s = (s, HintOutcome.hintCapReached)) := by
  have hpred : ∀ (s : RiddleHintState) (u : Nat),
      ((!(decide (u ∈ s.locked)) && (s.letters.getD u none).isNone) = true)
        ↔ (u ∉ s.locked ∧ s.letters.getD u none = none) := by
    intro s u
    rw [Bool.and_eq_true, Bool.not_eq_true', decide_eq_false_iff_not,
      Option.isNone_iff_eq_none]
  refine ⟨?_, ?_, ?_⟩
  · intro na s t hcap hfind
    have hnotcap : ¬ s.hintsUsed ≥ 2 := by omega
    have heq : riddleHint na s
        = ({ letters := s.letters.set t (some (normalizeHebrewFinalForm na
              ((answerWithoutSpaces na).getD t ' ') t)),
             locked := insert t s.locked,
             hintsUsed := s.hintsUsed + 1 }, .applied) := by
      simp only [riddleHint]
      rw [if_neg hnotcap, hfind]
    obtain ⟨k, hget, hpa, hfirst⟩ := find?_first hfind
    rw [heq]
    refine ⟨rfl, rfl, rfl, rfl, ?_, ?_, k, hget, ?_⟩
    · exact ((hpred s t).mp hpa).1
    · exact ((hpred s t).mp hpa).2
    · intro k2 hk2 u hu hcontra
      have hfalse := hfirst k2 hk2 u hu
      have htrue := (hpred s u).mpr hcontra
      rw [hfalse] at htrue
      exact Bool.noConfusion htrue
  · intro na s hcap hno
    have hnotcap : ¬ s.hintsUsed ≥ 2 := by omega
    have hfind : (getReadingOrderIndices na).find?
        (fun i => !(decide (i ∈ s.locked)) && (s.letters.getD i none).isNone)
          = none := by
      rw [List.find?_eq_none]
      intro x hx hpx
      exact hno x hx ((hpred s x).mp hpx)
    simp only [riddleHint]
    rw [if_neg hnotcap, hfind]
  · intro na s hcap
    simp only [riddleHint]
    rw [if_pos hcap]

/-- Witness for C6: a fresh two-letter riddle gets its first reading-order
position (index 1) hinted. -/
theorem riddleHint_c6_witness :
    (riddleHint ['א', 'ב'] ⟨[none, none], ∅, 0⟩).2 = HintOutcome.applied
    ∧ (riddleHint ['א', 'ב'] ⟨[none, none], ∅, 0⟩).1.hintsUsed = 1 :=
  ⟨(riddleHint_c6.1 ['א', 'ב'] ⟨[none, none], ∅, 0⟩ 1 (by decide) (by decide)).1,
   (riddleHint_c6.1 ['א', 'ב'] ⟨[none, none], ∅, 0⟩ 1 (by decide) (by decide)).2.1⟩
